import Mathlib

/-!
Verification of the oscillator / synchronization core of the wave exhibit
(source file wave2.py, classes PlayerState and MuseumSyncGame).

The Python floats are modelled as real numbers.  The fields of PlayerState
that belong to rendering only (color, window_h, wave_w, wave_speed and the
scrolling trail deque points, together with the amplitude parameter of
update, which is consumed only by the trail) are omitted: the spec scopes
all rendering out of the core.  Every other field and every statement of
PlayerState.queue_signal and PlayerState.update is translated one for one,
in the source order, as a chain of per-block functions whose composition
is update.  The sync-timer step of MuseumSyncGame.update is syncStep.

One modelling note: Python round uses round-half-to-even while Mathlib
round rounds half up; the two differ only when arrow_angle is an exact odd
multiple of pi, and no claim below depends on that tie case.
-/

/-- Configuration constants of wave2.py, verbatim. -/
def SYNC_DURATION : ℝ := 5.0

def INPUT_DELAY : ℝ := 2

def IDLE_RESET_TIME : ℝ := 4.0

def IDLE_RETURN_SPEED : ℝ := 4.0

def IDLE_WAVE_SETTLE : ℝ := 1.2

def SYNC_FREQ_TOLERANCE : ℝ := 0.10

def SYNC_PHASE_TOLERANCE : ℝ := 0.20

/-- PlayerState.SETTLE_DURATION. -/
def SETTLE_DURATION : ℝ := 0.55

/-- A raw signal: the character u or d of the source. -/
inductive Sig where
  | u
  | d
deriving DecidableEq

/-- The state of one PlayerState object (rendering-only fields omitted). -/
@[ext]
structure Osc where
  last_signal : Option Sig
  last_input_time : ℝ
  signal_queue : List (ℝ × ℝ)
  direction : ℝ
  half_period : ℝ
  cycle_active : Bool
  prev_accept_time : Option ℝ
  cos_angle : ℝ
  cos_dir : ℝ
  cos_speed : ℝ
  settling : Bool
  settle_start : ℝ
  settle_from_y : ℝ
  ever_had_input : Bool
  frequency : ℝ
  phase : ℝ
  y_norm : ℝ
  arrow_angle : ℝ
  arrow_speed : ℝ
  display_angle : ℝ
  idle_returning : Bool
  idle_wave_from : ℝ
  idle_wave_t : ℝ

/-- The clamp max(-1.0, min(1.0, v)) of line 166. -/
def clamp (x : ℝ) : ℝ := max (-1) (min 1 x)

/-- Python math.copysign on reals (the sign of a real zero is positive). -/
noncomputable def copysign (x y : ℝ) : ℝ := if y < 0 then -|x| else |x|

/-- Python float modulo a % b = a - b * floor(a / b). -/
noncomputable def fmod (a b : ℝ) : ℝ := a - b * (⌊a / b⌋ : ℝ)

/-- PlayerState.__init__ at wall-clock time t0. -/
noncomputable def initState (t0 : ℝ) : Osc where
  last_signal := none
  last_input_time := t0
  signal_queue := []
  direction := 1
  half_period := 1.0
  cycle_active := false
  prev_accept_time := none
  cos_angle := Real.pi / 2
  cos_dir := 1
  cos_speed := 0
  settling := false
  settle_start := t0
  settle_from_y := 0
  ever_had_input := false
  frequency := 0
  phase := 0
  y_norm := 0
  arrow_angle := 0
  arrow_speed := 0
  display_angle := 0
  idle_returning := false
  idle_wave_from := 0
  idle_wave_t := 0

/-- PlayerState.queue_signal. -/
noncomputable def queueSignal (s : Osc) (sig : Sig) (t : ℝ) : Osc :=
  if s.last_signal = some sig then s
  else
    { s with
      last_signal := some sig
      last_input_time := t
      signal_queue :=
        s.signal_queue ++ [(t + INPUT_DELAY, if sig = Sig.u then 1 else -1)] }

open Classical in
/-- The body of the while loop of update (lines 148-171): process one fired
queued input. -/
noncomputable def fireInput (s : Osc) (fire_time d : ℝ) : Osc :=
  let s1 :=
    match s.prev_accept_time with
    | some p =>
        let gap := fire_time - p
        if 0.05 < gap ∧ gap < 5.0 then
          { s with half_period := gap, frequency := 1 / (gap * 2) }
        else s
    | none => s
  { s1 with
    prev_accept_time := some fire_time
    direction := d
    cycle_active := true
    settling := false
    ever_had_input := true
    idle_returning := false
    cos_speed := Real.pi / s1.half_period
    cos_angle := Real.arccos (clamp (s1.y_norm * d))
    cos_dir := -1
    arrow_speed := Real.pi / s1.half_period }

open Classical in
/-- The while loop of update, recursing on the not-yet-examined queue. -/
noncomputable def drainAux (now : ℝ) : List (ℝ × ℝ) → Osc → Osc
  | [], s => { s with signal_queue := [] }
  | (f, d) :: rest, s =>
      if f ≤ now then drainAux now rest (fireInput s f d)
      else { s with signal_queue := (f, d) :: rest }

/-- Fire every queued input whose fire time has been reached. -/
noncomputable def drain (s : Osc) (now : ℝ) : Osc := drainAux now s.signal_queue s

open Classical in
/-- Lines 174-185: enter the idle return state. -/
noncomputable def idleEntryStep (idle : Prop) (s : Osc) : Osc :=
  if idle ∧ s.ever_had_input = true ∧ s.idle_returning = false then
    { s with
      idle_returning := true
      idle_wave_from := s.y_norm
      idle_wave_t := 0
      cycle_active := false
      settling := false
      cos_speed := 0
      arrow_speed := 0
      frequency := 0
      last_signal := none
      prev_accept_time := none }
  else s

open Classical in
/-- Lines 189-202: advance the bouncing cosine angle. -/
noncomputable def waveAdvance (s : Osc) (dt now : ℝ) : Osc :=
  if s.idle_returning = false ∧ s.cycle_active = true ∧ 0 < s.cos_speed then
    let ca1 := s.cos_angle + s.cos_dir * s.cos_speed * dt
    let ca2 := if ca1 ≤ 0 then -ca1 else ca1
    let cd2 := if ca1 ≤ 0 then 1 else s.cos_dir
    if Real.pi ≤ ca2 then
      { s with
        cos_angle := Real.pi
        cos_dir := cd2
        cycle_active := false
        settling := true
        settle_start := now
        settle_from_y := -s.direction }
    else { s with cos_angle := ca2, cos_dir := cd2 }
  else s

open Classical in
/-- Lines 204-206: advance the arrow accumulator. -/
noncomputable def arrowAdvance (s : Osc) (dt : ℝ) : Osc :=
  if s.idle_returning = false ∧ 0 < s.arrow_speed then
    { s with arrow_angle := s.arrow_angle + s.arrow_speed * dt }
  else s

open Classical in
/-- Lines 209-235: one frame of the idle return easing. -/
noncomputable def idleReturnStep (s : Osc) (dt : ℝ) : Osc :=
  let t := s.idle_wave_t + dt
  let wave_frac := min (t / IDLE_WAVE_SETTLE) 1
  let wave_ease := 1 - (1 - wave_frac) ^ 3
  let y0 := s.idle_wave_from * (1 - wave_ease)
  let target := ((round (s.arrow_angle / (2 * Real.pi)) : ℤ) : ℝ) * (2 * Real.pi)
  let diff := target - s.arrow_angle
  let step := IDLE_RETURN_SPEED * dt
  if 1 ≤ wave_frac ∧ |diff| ≤ step then
    { s with
      idle_wave_t := t
      idle_returning := false
      ever_had_input := false
      arrow_angle := 0
      y_norm := 0 }
  else
    { s with
      idle_wave_t := t
      arrow_angle := if |diff| ≤ step then target else s.arrow_angle + copysign step diff
      y_norm := y0 }

open Classical in
/-- Lines 238-254: the normal (non idle-returning) y_norm computation. -/
noncomputable def normalY (s : Osc) (now : ℝ) : Osc :=
  if s.ever_had_input = false then { s with y_norm := 0 }
  else if s.cycle_active = true then
    { s with y_norm := s.direction * Real.cos s.cos_angle }
  else if s.settling = true then
    let t := now - s.settle_start
    let frac := min (t / SETTLE_DURATION) 1
    let ease := 1 - (1 - frac) ^ 2
    if 1 ≤ frac then { s with settling := false, y_norm := 0 }
    else { s with y_norm := s.settle_from_y * (1 - ease) }
  else { s with y_norm := 0 }

open Classical in
/-- Line 209 dispatch: idle return owns y_norm, otherwise the normal path. -/
noncomputable def idleReturnOrY (s : Osc) (dt now : ℝ) : Osc :=
  if s.idle_returning = true then idleReturnStep s dt else normalY s now

/-- Lines 256-259: display_angle = arrow_angle mod 2 pi, phase follows it. -/
noncomputable def setDisplay (s : Osc) : Osc :=
  let da := fmod s.arrow_angle (2 * Real.pi)
  { s with display_angle := da, phase := da }

/-- PlayerState.update (the trail bookkeeping of lines 261-269 omitted). -/
noncomputable def update (s : Osc) (dt now : ℝ) : Osc :=
  let idle := IDLE_RESET_TIME < now - s.last_input_time
  setDisplay
    (idleReturnOrY
      (arrowAdvance (waveAdvance (idleEntryStep idle (drain s now)) dt now) dt)
      dt now)

/-- Wrap an angle difference into [-pi, pi): (x + pi) % 2pi - pi (line 506). -/
noncomputable def wrapPi (x : ℝ) : ℝ := fmod (x + Real.pi) (2 * Real.pi) - Real.pi

/-- The sync condition of MuseumSyncGame.update lines 505-508. -/
def syncCond (p q : Osc) : Prop :=
  |p.frequency - q.frequency| < SYNC_FREQ_TOLERANCE ∧
  |wrapPi (p.phase - q.phase)| < SYNC_PHASE_TOLERANCE ∧
  0.05 < p.frequency ∧ 0.05 < q.frequency

open Classical in
/-- The sync-timer update of MuseumSyncGame.update lines 508-511. -/
noncomputable def syncStep (p q : Osc) (timer dt : ℝ) : ℝ :=
  if syncCond p q then min SYNC_DURATION (timer + dt)
  else max 0 (timer - dt * 2)

/-- The states an oscillator can reach: construction, then interleaved
signal submissions and frame updates with nonnegative dt and monotonically
nondecreasing wall-clock time (the second component). -/
inductive Reachable : Osc → ℝ → Prop where
  | init (t0 : ℝ) : Reachable (initState t0) t0
  | submit {s : Osc} {t : ℝ} (sig : Sig) {t₁ : ℝ} :
      Reachable s t → t ≤ t₁ → Reachable (queueSignal s sig t₁) t₁
  | step {s : Osc} {t : ℝ} {dt t₁ : ℝ} :
      Reachable s t → t ≤ t₁ → 0 ≤ dt → Reachable (update s dt t₁) t₁

/-- The reachability invariant of one oscillator at wall-clock time t:
bounds on the exposed position and on every snapshot it is recomputed
from, sign facts for the two speeds, the plausibility filter on
half_period, the shape of frequency, the admissible queue directions, and
the fact that entering idle return zeroes all active motion. -/
def OscInv (s : Osc) (t : ℝ) : Prop :=
  (-1 ≤ s.y_norm ∧ s.y_norm ≤ 1) ∧
  (-1 ≤ s.idle_wave_from ∧ s.idle_wave_from ≤ 1) ∧
  (-1 ≤ s.settle_from_y ∧ s.settle_from_y ≤ 1) ∧
  0 ≤ s.idle_wave_t ∧
  (s.settling = true → s.settle_start ≤ t) ∧
  (s.direction = 1 ∨ s.direction = -1) ∧
  0 ≤ s.arrow_speed ∧
  0 ≤ s.cos_speed ∧
  (s.half_period = 1 ∨ (0.05 < s.half_period ∧ s.half_period < 5.0)) ∧
  (s.frequency = 0 ∨ ∃ g : ℝ, 0.05 < g ∧ g < 5.0 ∧ s.frequency = 1 / (g * 2)) ∧
  (∀ fd ∈ s.signal_queue, fd.2 = 1 ∨ fd.2 = -1) ∧
  (s.idle_returning = true →
    s.cos_speed = 0 ∧ s.arrow_speed = 0 ∧ s.cycle_active = false ∧
    s.settling = false)

/-! Phase characterization lemmas: each rewrites one block of update, under
the branch conditions, into an explicit record update. -/

theorem update_phases (s : Osc) (dt now : ℝ) :
    update s dt now =
      setDisplay
        (idleReturnOrY
          (arrowAdvance
            (waveAdvance
              (idleEntryStep (IDLE_RESET_TIME < now - s.last_input_time)
                (drain s now)) dt now) dt) dt now) := rfl

theorem fireInput_none (s : Osc) (f d : ℝ) (h : s.prev_accept_time = none) :
    fireInput s f d =
      { s with
        prev_accept_time := some f
        direction := d
        cycle_active := true
        settling := false
        ever_had_input := true
        idle_returning := false
        cos_speed := Real.pi / s.half_period
        cos_angle := Real.arccos (clamp (s.y_norm * d))
        cos_dir := -1
        arrow_speed := Real.pi / s.half_period } := by
  unfold fireInput
  rw [h]

theorem fireInput_good (s : Osc) (p f d : ℝ) (h : s.prev_accept_time = some p)
    (h1 : 0.05 < f - p) (h2 : f - p < 5.0) :
    fireInput s f d =
      { s with
        half_period := f - p
        frequency := 1 / ((f - p) * 2)
        prev_accept_time := some f
        direction := d
        cycle_active := true
        settling := false
        ever_had_input := true
        idle_returning := false
        cos_speed := Real.pi / (f - p)
        cos_angle := Real.arccos (clamp (s.y_norm * d))
        cos_dir := -1
        arrow_speed := Real.pi / (f - p) } := by
  unfold fireInput
  rw [h]
  dsimp only
  rw [if_pos ⟨h1, h2⟩]

theorem fireInput_bad (s : Osc) (p f d : ℝ) (h : s.prev_accept_time = some p)
    (h3 : ¬ (0.05 < f - p ∧ f - p < 5.0)) :
    fireInput s f d =
      { s with
        prev_accept_time := some f
        direction := d
        cycle_active := true
        settling := false
        ever_had_input := true
        idle_returning := false
        cos_speed := Real.pi / s.half_period
        cos_angle := Real.arccos (clamp (s.y_norm * d))
        cos_dir := -1
        arrow_speed := Real.pi / s.half_period } := by
  unfold fireInput
  rw [h]
  dsimp only
  rw [if_neg h3]

theorem drain_nil (s : Osc) (now : ℝ) (h : s.signal_queue = []) :
    drain s now = s := by
  unfold drain
  rw [h]
  simp only [drainAux]
  rw [← h]

theorem drain_wait (s : Osc) (now f d : ℝ) (rest : List (ℝ × ℝ))
    (h : s.signal_queue = (f, d) :: rest) (hf : ¬ f ≤ now) :
    drain s now = s := by
  unfold drain
  rw [h]
  simp only [drainAux]
  rw [if_neg hf, ← h]

theorem drain_one (s : Osc) (now f d : ℝ)
    (h : s.signal_queue = [(f, d)]) (hf : f ≤ now) :
    drain s now = { fireInput s f d with signal_queue := [] } := by
  unfold drain
  rw [h]
  simp only [drainAux]
  rw [if_pos hf]

theorem idleEntry_skip (idle : Prop) (s : Osc)
    (h : ¬ (idle ∧ s.ever_had_input = true ∧ s.idle_returning = false)) :
    idleEntryStep idle s = s := by
  unfold idleEntryStep
  rw [if_neg h]

theorem idleEntry_go (idle : Prop) (s : Osc)
    (h : idle ∧ s.ever_had_input = true ∧ s.idle_returning = false) :
    idleEntryStep idle s =
      { s with
        idle_returning := true
        idle_wave_from := s.y_norm
        idle_wave_t := 0
        cycle_active := false
        settling := false
        cos_speed := 0
        arrow_speed := 0
        frequency := 0
        last_signal := none
        prev_accept_time := none } := by
  unfold idleEntryStep
  rw [if_pos h]

theorem waveAdvance_skip (s : Osc) (dt now : ℝ)
    (h : ¬ (s.idle_returning = false ∧ s.cycle_active = true ∧ 0 < s.cos_speed)) :
    waveAdvance s dt now = s := by
  unfold waveAdvance
  rw [if_neg h]

theorem waveAdvance_mid (s : Osc) (dt now : ℝ)
    (h : s.idle_returning = false ∧ s.cycle_active = true ∧ 0 < s.cos_speed)
    (h1 : 0 < s.cos_angle + s.cos_dir * s.cos_speed * dt)
    (h2 : s.cos_angle + s.cos_dir * s.cos_speed * dt < Real.pi) :
    waveAdvance s dt now =
      { s with cos_angle := s.cos_angle + s.cos_dir * s.cos_speed * dt } := by
  unfold waveAdvance
  rw [if_pos h]
  dsimp only
  have hca : ¬ (s.cos_angle + s.cos_dir * s.cos_speed * dt ≤ 0) := by linarith
  rw [if_neg hca, if_neg hca, if_neg (by linarith : ¬ Real.pi ≤ s.cos_angle + s.cos_dir * s.cos_speed * dt)]

theorem arrowAdvance_skip (s : Osc) (dt : ℝ)
    (h : ¬ (s.idle_returning = false ∧ 0 < s.arrow_speed)) :
    arrowAdvance s dt = s := by
  unfold arrowAdvance
  rw [if_neg h]

theorem arrowAdvance_go (s : Osc) (dt : ℝ)
    (h : s.idle_returning = false ∧ 0 < s.arrow_speed) :
    arrowAdvance s dt = { s with arrow_angle := s.arrow_angle + s.arrow_speed * dt } := by
  unfold arrowAdvance
  rw [if_pos h]

theorem idleReturnOrY_idle (s : Osc) (dt now : ℝ) (h : s.idle_returning = true) :
    idleReturnOrY s dt now = idleReturnStep s dt := by
  unfold idleReturnOrY
  rw [if_pos h]

theorem idleReturnOrY_normal (s : Osc) (dt now : ℝ) (h : s.idle_returning = false) :
    idleReturnOrY s dt now = normalY s now := by
  unfold idleReturnOrY
  rw [if_neg (by simp [h])]

theorem normalY_noinput (s : Osc) (now : ℝ) (h : s.ever_had_input = false) :
    normalY s now = { s with y_norm := 0 } := by
  unfold normalY
  rw [if_pos h]

theorem normalY_active (s : Osc) (now : ℝ) (h : s.ever_had_input = true)
    (h2 : s.cycle_active = true) :
    normalY s now = { s with y_norm := s.direction * Real.cos s.cos_angle } := by
  unfold normalY
  rw [if_neg (by simp [h]), if_pos h2]

theorem normalY_rest (s : Osc) (now : ℝ) (h : s.ever_had_input = true)
    (h2 : s.cycle_active = false) (h3 : s.settling = false) :
    normalY s now = { s with y_norm := 0 } := by
  unfold normalY
  rw [if_neg (by simp [h]), if_neg (by simp [h2]), if_neg (by simp [h3])]

theorem setDisplay_eval (s : Osc) :
    setDisplay s =
      { s with
        display_angle := fmod s.arrow_angle (2 * Real.pi)
        phase := fmod s.arrow_angle (2 * Real.pi) } := rfl

theorem fmod_zero_left (b : ℝ) : fmod 0 b = 0 := by
  simp [fmod]

theorem fmod_small (a b : ℝ) (h0 : 0 ≤ a) (h1 : a < b) : fmod a b = a := by
  have hb : 0 < b := lt_of_le_of_lt h0 h1
  unfold fmod
  rw [Int.floor_eq_zero_iff.mpr
    ⟨div_nonneg h0 hb.le, by rwa [div_lt_one hb]⟩]
  simp

/-! Preservation of the invariant by every event. -/

theorem mul_unit_bounds {x c : ℝ} (hx1 : -1 ≤ x) (hx2 : x ≤ 1)
    (hc0 : 0 ≤ c) (hc1 : c ≤ 1) : -1 ≤ x * c ∧ x * c ≤ 1 := by
  constructor <;> nlinarith

theorem inv_mono {s : Osc} {t t₁ : ℝ} (h : OscInv s t) (ht : t ≤ t₁) :
    OscInv s t₁ := by
  obtain ⟨a, b, c, d, e, f, g, h8, h9, h10, h11, h12⟩ := h
  exact ⟨a, b, c, d, fun hs => le_trans (e hs) ht, f, g, h8, h9, h10, h11, h12⟩

theorem inv_init (t0 : ℝ) : OscInv (initState t0) t0 := by
  unfold OscInv initState
  norm_num

theorem inv_queueSignal {s : Osc} {t : ℝ} (h : OscInv s t) (sig : Sig) {t₁ : ℝ}
    (ht : t ≤ t₁) : OscInv (queueSignal s sig t₁) t₁ := by
  have h₁ := inv_mono h ht
  obtain ⟨a, b, c, d, e, f, g, h8, h9, h10, h11, h12⟩ := h₁
  unfold queueSignal
  split_ifs with hc hs
  · exact ⟨a, b, c, d, e, f, g, h8, h9, h10, h11, h12⟩
  all_goals
    refine ⟨a, b, c, d, e, f, g, h8, h9, h10, ?_, h12⟩
  all_goals
    intro fd hfd
  all_goals
    rcases List.mem_append.mp hfd with hin | hin
  · exact h11 fd hin
  · rw [List.mem_singleton.mp hin]; simp
  · exact h11 fd hin
  · rw [List.mem_singleton.mp hin]; simp

theorem inv_fireInput {s : Osc} {t : ℝ} (h : OscInv s t) {f d : ℝ}
    (hd : d = 1 ∨ d = -1) : OscInv (fireInput s f d) t := by
  obtain ⟨a, b, c, d4, e, f6, g, h8, h9, h10, h11, h12⟩ := h
  have hppos : 0 < s.half_period := by
    rcases h9 with h | h
    · rw [h]; norm_num
    · linarith [h.1]
  cases hpa : s.prev_accept_time with
  | none =>
      rw [fireInput_none s f d hpa]
      exact ⟨a, b, c, d4, by simp, hd,
        div_nonneg Real.pi_pos.le hppos.le, div_nonneg Real.pi_pos.le hppos.le,
        h9, h10, h11, by simp⟩
  | some p =>
      by_cases hgap : 0.05 < f - p ∧ f - p < 5.0
      · rw [fireInput_good s p f d hpa hgap.1 hgap.2]
        exact ⟨a, b, c, d4, by simp, hd,
          div_nonneg Real.pi_pos.le (by linarith [hgap.1]),
          div_nonneg Real.pi_pos.le (by linarith [hgap.1]),
          Or.inr hgap, Or.inr ⟨f - p, hgap.1, hgap.2, rfl⟩, h11, by simp⟩
      · rw [fireInput_bad s p f d hpa hgap]
        exact ⟨a, b, c, d4, by simp, hd,
          div_nonneg Real.pi_pos.le hppos.le, div_nonneg Real.pi_pos.le hppos.le,
          h9, h10, h11, by simp⟩

theorem inv_drainAux (now : ℝ) {t : ℝ} :
    ∀ (l : List (ℝ × ℝ)) (s : Osc), OscInv s t →
      (∀ fd ∈ l, fd.2 = 1 ∨ fd.2 = -1) → OscInv (drainAux now l s) t := by
  intro l
  induction l with
  | nil =>
      intro s h _
      simp only [drainAux]
      obtain ⟨a, b, c, d, e, f, g, h8, h9, h10, h11, h12⟩ := h
      exact ⟨a, b, c, d, e, f, g, h8, h9, h10, by simp, h12⟩
  | cons fd rest ih =>
      intro s h hl
      obtain ⟨fi, d⟩ := fd
      simp only [drainAux]
      split_ifs with hf
      · exact ih (fireInput s fi d)
          (inv_fireInput h (hl (fi, d) (List.mem_cons_self _ _)))
          (fun x hx => hl x (List.mem_cons_of_mem _ hx))
      · obtain ⟨a, b, c, d4, e, f6, g, h8, h9, h10, h11, h12⟩ := h
        exact ⟨a, b, c, d4, e, f6, g, h8, h9, h10, hl, h12⟩

theorem inv_drain {s : Osc} {t : ℝ} (h : OscInv s t) (now : ℝ) :
    OscInv (drain s now) t := by
  unfold drain
  exact inv_drainAux now s.signal_queue s h (by
    obtain ⟨a, b, c, d, e, f, g, h8, h9, h10, h11, h12⟩ := h
    exact h11)

theorem inv_idleEntry {s : Osc} {t : ℝ} (h : OscInv s t) (idle : Prop) :
    OscInv (idleEntryStep idle s) t := by
  unfold idleEntryStep
  split_ifs with hc
  · obtain ⟨a, b, c, d, e, f, g, h8, h9, h10, h11, h12⟩ := h
    exact ⟨a, a, c, le_refl 0, by simp, f, le_refl 0, le_refl 0, h9, Or.inl rfl,
      h11, fun _ => ⟨rfl, rfl, rfl, rfl⟩⟩
  · exact h

theorem inv_wave {s : Osc} {now : ℝ} (h : OscInv s now) (dt : ℝ) :
    OscInv (waveAdvance s dt now) now := by
  obtain ⟨a, b, c, d, e, f, g, h8, h9, h10, h11, h12⟩ := h
  have hsf : -1 ≤ -s.direction ∧ -s.direction ≤ 1 := by
    rcases f with hf | hf <;> rw [hf] <;> norm_num
  unfold waveAdvance
  dsimp only
  split_ifs with hc h2 h3 h4
  all_goals
    first
      | exact ⟨a, b, c, d, e, f, g, h8, h9, h10, h11, h12⟩
      | exact ⟨a, b, hsf, d, fun _ => le_refl now, f, g, h8, h9, h10, h11,
          fun hr => by simp only [hc.1] at hr; exact Bool.noConfusion hr⟩

theorem inv_arrow {s : Osc} {now : ℝ} (h : OscInv s now) (dt : ℝ) :
    OscInv (arrowAdvance s dt) now := by
  unfold arrowAdvance
  split_ifs with hc
  · obtain ⟨a, b, c, d, e, f, g, h8, h9, h10, h11, h12⟩ := h
    exact ⟨a, b, c, d, e, f, g, h8, h9, h10, h11, h12⟩
  · exact h

theorem inv_idleReturnStep {s : Osc} {now : ℝ} (h : OscInv s now) {dt : ℝ}
    (hdt : 0 ≤ dt) : OscInv (idleReturnStep s dt) now := by
  obtain ⟨a, b, c, d, e, f, g, h8, h9, h10, h11, h12⟩ := h
  have ht0 : 0 ≤ s.idle_wave_t + dt := add_nonneg d hdt
  have hfrac0 : 0 ≤ min ((s.idle_wave_t + dt) / IDLE_WAVE_SETTLE) 1 :=
    le_min (div_nonneg ht0 (by norm_num [IDLE_WAVE_SETTLE])) zero_le_one
  have hfrac1 : min ((s.idle_wave_t + dt) / IDLE_WAVE_SETTLE) 1 ≤ 1 :=
    min_le_right _ _
  have hcube0 : 0 ≤ (1 - min ((s.idle_wave_t + dt) / IDLE_WAVE_SETTLE) 1) ^ 3 :=
    pow_nonneg (by linarith) 3
  have hcube1 : (1 - min ((s.idle_wave_t + dt) / IDLE_WAVE_SETTLE) 1) ^ 3 ≤ 1 :=
    pow_le_one₀ (by linarith) (by linarith)
  have hmul := mul_unit_bounds b.1 b.2 hcube0 hcube1
  unfold idleReturnStep
  dsimp only
  split_ifs with hc h2
  · exact ⟨⟨by norm_num, by norm_num⟩, b, c, ht0, e, f, g, h8, h9, h10, h11,
      by simp⟩
  all_goals
    refine ⟨?_, b, c, ht0, e, f, g, h8, h9, h10, h11, fun hr => h12 hr⟩
  all_goals
    constructor <;> nlinarith [hmul.1, hmul.2]

theorem inv_normalY {s : Osc} {now : ℝ} (h : OscInv s now) :
    OscInv (normalY s now) now := by
  obtain ⟨a, b, c, d, e, f, g, h8, h9, h10, h11, h12⟩ := h
  unfold normalY
  dsimp only
  split_ifs with c1 c2 c3 c4
  · exact ⟨⟨by norm_num, by norm_num⟩, b, c, d, e, f, g, h8, h9, h10, h11, h12⟩
  · refine ⟨?_, b, c, d, e, f, g, h8, h9, h10, h11, h12⟩
    have hc1 := Real.cos_le_one s.cos_angle
    have hc2 := Real.neg_one_le_cos s.cos_angle
    dsimp only
    rcases f with hf | hf <;> rw [hf] <;> constructor <;> nlinarith
  · exact ⟨⟨by norm_num, by norm_num⟩, b, c, d, by simp, f, g, h8, h9, h10, h11,
      fun hr => ⟨(h12 hr).1, (h12 hr).2.1, (h12 hr).2.2.1, by simp⟩⟩
  · have hst : s.settle_start ≤ now := e c3
    have hfr0 : 0 ≤ min ((now - s.settle_start) / SETTLE_DURATION) 1 :=
      le_min (div_nonneg (by linarith) (by norm_num [SETTLE_DURATION])) zero_le_one
    have hfr1 : min ((now - s.settle_start) / SETTLE_DURATION) 1 ≤ 1 :=
      min_le_right _ _
    have hsq0 : 0 ≤ (1 - min ((now - s.settle_start) / SETTLE_DURATION) 1) ^ 2 :=
      pow_nonneg (by linarith) 2
    have hsq1 : (1 - min ((now - s.settle_start) / SETTLE_DURATION) 1) ^ 2 ≤ 1 :=
      pow_le_one₀ (by linarith) (by linarith)
    have hmul := mul_unit_bounds c.1 c.2 hsq0 hsq1
    refine ⟨?_, b, c, d, e, f, g, h8, h9, h10, h11, h12⟩
    constructor <;> nlinarith [hmul.1, hmul.2]
  · exact ⟨⟨by norm_num, by norm_num⟩, b, c, d, e, f, g, h8, h9, h10, h11, h12⟩

theorem inv_idleReturnOrY {s : Osc} {now : ℝ} (h : OscInv s now) {dt : ℝ}
    (hdt : 0 ≤ dt) : OscInv (idleReturnOrY s dt now) now := by
  unfold idleReturnOrY
  split_ifs with hc
  · exact inv_idleReturnStep h hdt
  · exact inv_normalY h

theorem inv_setDisplay {s : Osc} {now : ℝ} (h : OscInv s now) :
    OscInv (setDisplay s) now := by
  obtain ⟨a, b, c, d, e, f, g, h8, h9, h10, h11, h12⟩ := h
  exact ⟨a, b, c, d, e, f, g, h8, h9, h10, h11, h12⟩

theorem inv_update {s : Osc} {t dt now : ℝ} (h : OscInv s t) (ht : t ≤ now)
    (hdt : 0 ≤ dt) : OscInv (update s dt now) now := by
  rw [update_phases]
  exact inv_setDisplay
    (inv_idleReturnOrY
      (inv_arrow (inv_wave (inv_idleEntry (inv_drain (inv_mono h ht) now) _) dt) dt)
      hdt)

theorem reachable_inv {s : Osc} {t : ℝ} (h : Reachable s t) : OscInv s t := by
  induction h with
  | init t0 => exact inv_init t0
  | submit sig hr hle ih => exact inv_queueSignal ih sig hle
  | step hr hle hdt ih => exact inv_update ih hle hdt

/-! Field-tracking lemmas: which fields each phase leaves unchanged. -/

theorem fireInput_fields (s : Osc) (f d : ℝ) :
    (fireInput s f d).arrow_angle = s.arrow_angle ∧
    (fireInput s f d).last_input_time = s.last_input_time ∧
    (fireInput s f d).idle_returning = false ∧
    (fireInput s f d).y_norm = s.y_norm := by
  unfold fireInput
  cases s.prev_accept_time with
  | none => exact ⟨rfl, rfl, rfl, rfl⟩
  | some p =>
      dsimp only
      split_ifs <;> exact ⟨rfl, rfl, rfl, rfl⟩

theorem drainAux_fields (now : ℝ) :
    ∀ (l : List (ℝ × ℝ)) (s : Osc),
      (drainAux now l s).arrow_angle = s.arrow_angle ∧
      (drainAux now l s).last_input_time = s.last_input_time := by
  intro l
  induction l with
  | nil => intro s; exact ⟨rfl, rfl⟩
  | cons fd rest ih =>
      intro s
      obtain ⟨f, d⟩ := fd
      simp only [drainAux]
      split_ifs with hf
      · obtain ⟨ha, hl⟩ := ih (fireInput s f d)
        obtain ⟨ha2, hl2, _, _⟩ := fireInput_fields s f d
        exact ⟨ha.trans ha2, hl.trans hl2⟩
      · exact ⟨rfl, rfl⟩

theorem drainAux_idleret (now : ℝ) :
    ∀ (l : List (ℝ × ℝ)) (s : Osc), s.idle_returning = false →
      (drainAux now l s).idle_returning = false := by
  intro l
  induction l with
  | nil => intro s h; exact h
  | cons fd rest ih =>
      intro s h
      obtain ⟨f, d⟩ := fd
      simp only [drainAux]
      split_ifs with hf
      · exact ih (fireInput s f d) (fireInput_fields s f d).2.2.1
      · exact h

theorem idleEntry_fields (idle : Prop) (s : Osc) :
    (idleEntryStep idle s).arrow_angle = s.arrow_angle := by
  unfold idleEntryStep
  split_ifs <;> rfl

theorem waveAdvance_fields (s : Osc) (dt now : ℝ) :
    (waveAdvance s dt now).arrow_angle = s.arrow_angle ∧
    (waveAdvance s dt now).arrow_speed = s.arrow_speed ∧
    (waveAdvance s dt now).idle_returning = s.idle_returning := by
  unfold waveAdvance
  dsimp only
  split_ifs <;> exact ⟨rfl, rfl, rfl⟩

theorem arrowAdvance_fields (s : Osc) (dt : ℝ) :
    (arrowAdvance s dt).arrow_speed = s.arrow_speed ∧
    (arrowAdvance s dt).idle_returning = s.idle_returning := by
  unfold arrowAdvance
  split_ifs <;> exact ⟨rfl, rfl⟩

theorem normalY_fields (s : Osc) (now : ℝ) :
    (normalY s now).arrow_angle = s.arrow_angle ∧
    (normalY s now).arrow_speed = s.arrow_speed := by
  unfold normalY
  dsimp only
  split_ifs <;> exact ⟨rfl, rfl⟩

theorem setDisplay_fields (s : Osc) :
    (setDisplay s).arrow_angle = s.arrow_angle ∧
    (setDisplay s).arrow_speed = s.arrow_speed ∧
    (setDisplay s).y_norm = s.y_norm := ⟨rfl, rfl, rfl⟩

theorem abs_copysign (x y : ℝ) : |copysign x y| = |x| := by
  unfold copysign
  split_ifs <;> simp

/-- C2: along every reachable interleaving of submissions and frame updates
with nonnegative dt and nondecreasing wall-clock time, the exposed position
y_norm stays in the interval from -1 to 1. -/
theorem position_always_bounded {s : Osc} {t : ℝ} (h : Reachable s t) :
    -1 ≤ s.y_norm ∧ s.y_norm ≤ 1 := (reachable_inv h).1

theorem position_always_bounded_witness :
    Reachable (update (queueSignal (initState 0) Sig.u 0) 1 2) 2 ∧
    (-1 ≤ (update (queueSignal (initState 0) Sig.u 0) 1 2).y_norm ∧
      (update (queueSignal (initState 0) Sig.u 0) 1 2).y_norm ≤ 1) :=
  have hr : Reachable (update (queueSignal (initState 0) Sig.u 0) 1 2) 2 :=
    Reachable.step (Reachable.submit Sig.u (Reachable.init 0) le_rfl)
      (by norm_num) (by norm_num)
  ⟨hr, position_always_bounded hr⟩

/-- C9: the oscillator arithmetic is total on reachable states: the acos
argument is clamped into the interval from -1 to 1, half_period is either
its initial value 1.0 or a measured gap in (0.05, 5.0), hence positive, and
frequency is 0 until a valid gap establishes it as 1 / (2 gap). -/
theorem oscillator_arithmetic_total {s : Osc} {t : ℝ} (h : Reachable s t) :
    (∀ x : ℝ, -1 ≤ clamp x ∧ clamp x ≤ 1) ∧
    (s.half_period = 1 ∨ (0.05 < s.half_period ∧ s.half_period < 5.0)) ∧
    0 < s.half_period ∧
    (s.frequency = 0 ∨ ∃ g : ℝ, 0.05 < g ∧ g < 5.0 ∧ s.frequency = 1 / (g * 2)) := by
  obtain ⟨a, b, c, d, e, f, g, h8, h9, h10, h11, h12⟩ := reachable_inv h
  refine ⟨fun x => ⟨le_max_left _ _, max_le (by norm_num) (min_le_left _ _)⟩,
    h9, ?_, h10⟩
  rcases h9 with hh | hh
  · rw [hh]; norm_num
  · linarith [hh.1]

theorem oscillator_arithmetic_total_witness :
    Reachable (initState 3) 3 ∧
    ((∀ x : ℝ, -1 ≤ clamp x ∧ clamp x ≤ 1) ∧
      ((initState 3).half_period = 1 ∨
        (0.05 < (initState 3).half_period ∧ (initState 3).half_period < 5.0)) ∧
      0 < (initState 3).half_period ∧
      ((initState 3).frequency = 0 ∨
        ∃ g : ℝ, 0.05 < g ∧ g < 5.0 ∧ (initState 3).frequency = 1 / (g * 2))) :=
  ⟨Reachable.init 3, oscillator_arithmetic_total (Reachable.init 3)⟩

theorem drain_fields (s : Osc) (now : ℝ) :
    (drain s now).arrow_angle = s.arrow_angle ∧
    (drain s now).last_input_time = s.last_input_time :=
  drainAux_fields now s.signal_queue s

theorem drain_idleret (s : Osc) (now : ℝ) (h : s.idle_returning = false) :
    (drain s now).idle_returning = false :=
  drainAux_idleret now s.signal_queue s h

theorem idleReturnStep_arrow (s : Osc) {dt : ℝ} (hdt : 0 ≤ dt) :
    |(idleReturnStep s dt).arrow_angle - s.arrow_angle| ≤ IDLE_RETURN_SPEED * dt ∨
    (idleReturnStep s dt).arrow_angle = 0 := by
  unfold idleReturnStep
  dsimp only
  split_ifs with hc h2
  · right; rfl
  · left
    exact h2
  · left
    have hr :
        s.arrow_angle +
            copysign (IDLE_RETURN_SPEED * dt)
              (((round (s.arrow_angle / (2 * Real.pi)) : ℤ) : ℝ) * (2 * Real.pi) -
                s.arrow_angle) -
          s.arrow_angle =
        copysign (IDLE_RETURN_SPEED * dt)
          (((round (s.arrow_angle / (2 * Real.pi)) : ℤ) : ℝ) * (2 * Real.pi) -
            s.arrow_angle) := by ring
    rw [hr, abs_copysign, abs_of_nonneg (mul_nonneg (by norm_num [IDLE_RETURN_SPEED]) hdt)]

/-- C3: the arrow angle accumulator is a ratchet: on any frame of a
reachable state that is not idle and not idle-returning it advances by
exactly arrow_speed times dt with nonnegative arrow_speed, hence never
decreases; and on every frame whatsoever it either grows, moves by at most
the idle glide step IDLE_RETURN_SPEED times dt, or is the single reset to
exactly 0 at idle-return completion. -/
theorem arrow_angle_ratchet {s : Osc} {t : ℝ} (h : Reachable s t) {dt now : ℝ}
    (ht : t ≤ now) (hdt : 0 ≤ dt) :
    (¬ IDLE_RESET_TIME < now - s.last_input_time → s.idle_returning = false →
      (update s dt now).arrow_angle =
        s.arrow_angle + (update s dt now).arrow_speed * dt ∧
      s.arrow_angle ≤ (update s dt now).arrow_angle) ∧
    (s.arrow_angle ≤ (update s dt now).arrow_angle ∨
      |(update s dt now).arrow_angle - s.arrow_angle| ≤ IDLE_RETURN_SPEED * dt ∨
      (update s dt now).arrow_angle = 0) := by
  have hinv := inv_mono (reachable_inv h) ht
  have hinvD := inv_drain hinv now
  rw [update_phases]
  set P := (IDLE_RESET_TIME < now - s.last_input_time : Prop) with hPdef
  set D := drain s now with hDdef
  set E := idleEntryStep P D with hEdef
  set W := waveAdvance E dt now with hWdef
  set A := arrowAdvance W dt with hAdef
  set Y := idleReturnOrY A dt now with hYdef
  have hinvE : OscInv E now := by rw [hEdef]; exact inv_idleEntry hinvD P
  obtain ⟨_, _, _, _, _, _, hEspd, _, _, _, _, _⟩ := hinvE
  have hDarr : D.arrow_angle = s.arrow_angle := by
    rw [hDdef]; exact (drain_fields s now).1
  have hEarr : E.arrow_angle = D.arrow_angle := by
    rw [hEdef]; exact idleEntry_fields P D
  have hWarr : W.arrow_angle = E.arrow_angle := by
    rw [hWdef]; exact (waveAdvance_fields E dt now).1
  have hWspd : W.arrow_speed = E.arrow_speed := by
    rw [hWdef]; exact (waveAdvance_fields E dt now).2.1
  have hWidle : W.idle_returning = E.idle_returning := by
    rw [hWdef]; exact (waveAdvance_fields E dt now).2.2
  have hAspd : A.arrow_speed = W.arrow_speed := by
    rw [hAdef]; exact (arrowAdvance_fields W dt).1
  have hAidle : A.idle_returning = W.idle_returning := by
    rw [hAdef]; exact (arrowAdvance_fields W dt).2
  have hSarr : (setDisplay Y).arrow_angle = Y.arrow_angle := rfl
  have hSspd : (setDisplay Y).arrow_speed = Y.arrow_speed := rfl
  rw [hSarr, hSspd]
  by_cases hAi : A.idle_returning = true
  · -- the idle-return easing owns the arrow this frame
    have hY : Y = idleReturnStep A dt := by
      rw [hYdef]; exact idleReturnOrY_idle A dt now hAi
    have hWi : W.idle_returning = true := by rw [← hAidle]; exact hAi
    have hAW : A = W := by
      rw [hAdef]
      exact arrowAdvance_skip W dt
        (fun hcc => by rw [hWi] at hcc; exact Bool.noConfusion hcc.1)
    have haA : A.arrow_angle = s.arrow_angle := by
      rw [hAW, hWarr, hEarr, hDarr]
    constructor
    · intro hni hsi
      exfalso
      have hDi : D.idle_returning = false := by
        rw [hDdef]; exact drain_idleret s now hsi
      have hED : E = D := by
        rw [hEdef]; exact idleEntry_skip P D (fun hp => hni hp.1)
      rw [hWidle, hED, hDi] at hWi
      exact Bool.noConfusion hWi
    · right
      rcases idleReturnStep_arrow A hdt with hx | hx
      · left; rw [hY, haA] at *; exact haA ▸ (by rw [hY]; rw [← haA]; exact hx)
      · right; rw [hY]; exact hx
  · -- no idle return: the accumulator integrates at arrow_speed
    have hAif : A.idle_returning = false := by
      cases hh : A.idle_returning
      · rfl
      · exact absurd hh hAi
    have hY : Y = normalY A now := by
      rw [hYdef]; exact idleReturnOrY_normal A dt now hAif
    have hYarr : Y.arrow_angle = A.arrow_angle := by
      rw [hY]; exact (normalY_fields A now).1
    have hYspd : Y.arrow_speed = A.arrow_speed := by
      rw [hY]; exact (normalY_fields A now).2
    have hWif : W.idle_returning = false := by rw [← hAidle]; exact hAif
    have hkey : A.arrow_angle = s.arrow_angle + A.arrow_speed * dt := by
      by_cases hWs : 0 < W.arrow_speed
      · have hgo : A = { W with arrow_angle := W.arrow_angle + W.arrow_speed * dt } := by
          rw [hAdef]; exact arrowAdvance_go W dt ⟨hWif, hWs⟩
        have : A.arrow_angle = W.arrow_angle + W.arrow_speed * dt := by rw [hgo]
        rw [this, hWarr, hEarr, hDarr, hAspd]
      · have hskip : A = W := by
          rw [hAdef]; exact arrowAdvance_skip W dt (fun hcc => hWs hcc.2)
        have hz : W.arrow_speed = 0 := le_antisymm (not_lt.mp hWs) (by rw [hWspd]; exact hEspd)
        rw [hskip, hz, hWarr, hEarr, hDarr]
        ring
    have hspd0 : 0 ≤ A.arrow_speed := by rw [hAspd, hWspd]; exact hEspd
    have hmono : s.arrow_angle ≤ Y.arrow_angle := by
      rw [hYarr, hkey]
      nlinarith
    exact ⟨fun _ _ => ⟨by rw [hYarr, hYspd]; exact hkey, hmono⟩, Or.inl hmono⟩

theorem arrow_angle_ratchet_witness :
    Reachable (initState 0) 0 ∧ (0 : ℝ) ≤ 1 ∧ (0 : ℝ) ≤ 1 ∧
    ((¬ IDLE_RESET_TIME < 1 - (initState 0).last_input_time →
        (initState 0).idle_returning = false →
        (update (initState 0) 1 1).arrow_angle =
          (initState 0).arrow_angle + (update (initState 0) 1 1).arrow_speed * 1 ∧
        (initState 0).arrow_angle ≤ (update (initState 0) 1 1).arrow_angle) ∧
      ((initState 0).arrow_angle ≤ (update (initState 0) 1 1).arrow_angle ∨
        |(update (initState 0) 1 1).arrow_angle - (initState 0).arrow_angle| ≤
          IDLE_RETURN_SPEED * 1 ∨
        (update (initState 0) 1 1).arrow_angle = 0)) :=
  ⟨Reachable.init 0, by norm_num, by norm_num,
    arrow_angle_ratchet (Reachable.init 0) (by norm_num) (by norm_num)⟩

/-- C1: the sync-timer frame step accrues by dt when the frequency gap,
wrapped phase gap, and activity threshold all pass, decays at twice the
rate otherwise, and therefore keeps sync_timer inside the interval from 0
to SYNC_DURATION with progress in the unit interval. -/
theorem sync_timer_step_bounds (p q : Osc) (timer dt : ℝ)
    (hdt : 0 ≤ dt) (h0 : 0 ≤ timer) (h1 : timer ≤ SYNC_DURATION) :
    (syncCond p q → syncStep p q timer dt = min SYNC_DURATION (timer + dt)) ∧
    (¬ syncCond p q → syncStep p q timer dt = max 0 (timer - 2 * dt)) ∧
    0 ≤ syncStep p q timer dt ∧ syncStep p q timer dt ≤ SYNC_DURATION ∧
    0 ≤ syncStep p q timer dt / SYNC_DURATION ∧
    syncStep p q timer dt / SYNC_DURATION ≤ 1 := by
  have hD : (0:ℝ) < SYNC_DURATION := by norm_num [SYNC_DURATION]
  unfold syncStep
  split_ifs with h
  · refine ⟨fun _ => rfl, fun hn => absurd h hn, le_min hD.le (by linarith),
      min_le_left _ _, ?_, ?_⟩
    · exact div_nonneg (le_min hD.le (by linarith)) hD.le
    · exact (div_le_one hD).mpr (min_le_left _ _)
  · refine ⟨fun hc => absurd hc h, fun _ => by ring_nf, le_max_left _ _,
      max_le hD.le (by linarith), ?_, ?_⟩
    · exact div_nonneg (le_max_left _ _) hD.le
    · exact (div_le_one hD).mpr (max_le hD.le (by linarith))

theorem sync_timer_step_bounds_witness :
    (0 : ℝ) ≤ 1 ∧
    (0 ≤ syncStep (initState 0) (initState 0) 1 1 ∧
      syncStep (initState 0) (initState 0) 1 1 ≤ SYNC_DURATION) :=
  ⟨by norm_num,
    ⟨(sync_timer_step_bounds (initState 0) (initState 0) 1 1 (by norm_num)
        (by norm_num) (by norm_num [SYNC_DURATION])).2.2.1,
      (sync_timer_step_bounds (initState 0) (initState 0) 1 1 (by norm_num)
        (by norm_num) (by norm_num [SYNC_DURATION])).2.2.2.1⟩⟩

/-- C4: an accepted input with a previous accepted-input time updates
half_period and frequency exactly when the gap lies strictly between 0.05
and 5.0 seconds, and keeps both prior values otherwise (so a 10-second gap
is ignored). -/
theorem gap_outlier_filter (s : Osc) (p f d : ℝ)
    (hp : s.prev_accept_time = some p) :
    ((0.05 < f - p ∧ f - p < 5.0) →
      (fireInput s f d).half_period = f - p ∧
      (fireInput s f d).frequency = 1 / ((f - p) * 2)) ∧
    (¬ (0.05 < f - p ∧ f - p < 5.0) →
      (fireInput s f d).half_period = s.half_period ∧
      (fireInput s f d).frequency = s.frequency) := by
  unfold fireInput
  rw [hp]
  dsimp only
  split_ifs with h
  · exact ⟨fun _ => ⟨rfl, rfl⟩, fun hn => absurd h hn⟩
  · exact ⟨fun hc => absurd hc h, fun _ => ⟨rfl, rfl⟩⟩

theorem gap_outlier_filter_witness :
    ({ initState 0 with prev_accept_time := some 0 } : Osc).prev_accept_time =
      some 0 ∧
    (fireInput { initState 0 with prev_accept_time := some 0 } 10 1).half_period =
      ({ initState 0 with prev_accept_time := some 0 } : Osc).half_period ∧
    (fireInput { initState 0 with prev_accept_time := some 0 } 10 1).frequency =
      ({ initState 0 with prev_accept_time := some 0 } : Osc).frequency :=
  ⟨rfl,
    (gap_outlier_filter { initState 0 with prev_accept_time := some 0 } 0 10 1
      rfl).2 (by norm_num)⟩

/-- C7 counterexample: queue_signal does not mark ever_had_input; after the
very first submit and before any frame update the flag is still false,
contradicting the claim that submit itself sets it. -/
theorem ever_had_input_false_after_submit :
    (queueSignal (initState 0) Sig.u 0).ever_had_input = false := by
  simp [queueSignal, initState]

/-- C7 amended: queue_signal leaves ever_had_input unchanged; the flag
becomes true when a queued signal fires inside a frame update. -/
theorem ever_had_input_set_at_fire (s : Osc) (sig : Sig) (t f d : ℝ) :
    (queueSignal s sig t).ever_had_input = s.ever_had_input ∧
    (fireInput s f d).ever_had_input = true := by
  constructor
  · unfold queueSignal
    split_ifs <;> rfl
  · rfl

/-! Concrete trace evaluations used by the idle-timing and steady-gap
scenarios.  Frames with dt = 0 keep the cosine angle at arccos 0 = pi / 2
so every branch condition is decidable arithmetic. -/

theorem ev_q0 :
    queueSignal (initState 0) Sig.u 0 =
      ⟨some Sig.u, 0, [(2, 1)], 1, 1, false, none, Real.pi / 2, 1, 0, false, 0, 0,
        false, 0, 0, 0, 0, 0, 0, false, 0, 0⟩ := by
  simp [queueSignal, initState, INPUT_DELAY]
  norm_num

theorem ev_A1 :
    update (⟨some Sig.u, 0, [(2, 1)], 1, 1, false, none, Real.pi / 2, 1, 0, false, 0, 0,
        false, 0, 0, 0, 0, 0, 0, false, 0, 0⟩ : Osc) 0.1 4.2 =
      ⟨none, 0, [], 1, 1, false, none, Real.pi / 2, -1, 0, false, 0, 0,
        true, 0, 0, 0, 0, 0, 0, true, 0, 0.1⟩ := by
  have hpi := Real.pi_pos
  norm_num [update, drain, drainAux, fireInput, idleEntryStep, waveAdvance,
    arrowAdvance, idleReturnOrY, idleReturnStep, normalY, setDisplay, clamp,
    copysign, fmod, INPUT_DELAY, IDLE_RESET_TIME, IDLE_WAVE_SETTLE,
    IDLE_RETURN_SPEED, min_def, max_def, Real.arccos_zero]

theorem ev_A2 :
    update (⟨none, 0, [], 1, 1, false, none, Real.pi / 2, -1, 0, false, 0, 0,
        true, 0, 0, 0, 0, 0, 0, true, 0, 0.1⟩ : Osc) 1.5 6 =
      ⟨none, 0, [], 1, 1, false, none, Real.pi / 2, -1, 0, false, 0, 0,
        false, 0, 0, 0, 0, 0, 0, false, 0, 1.6⟩ := by
  have hpi := Real.pi_pos
  norm_num [update, drain, drainAux, fireInput, idleEntryStep, waveAdvance,
    arrowAdvance, idleReturnOrY, idleReturnStep, normalY, setDisplay, clamp,
    copysign, fmod, INPUT_DELAY, IDLE_RESET_TIME, IDLE_WAVE_SETTLE,
    IDLE_RETURN_SPEED, min_def, max_def, Real.arccos_zero]

theorem ev_B1 :
    update (⟨some Sig.u, 0, [(2, 1)], 1, 1, false, none, Real.pi / 2, 1, 0, false, 0, 0,
        false, 0, 0, 0, 0, 0, 0, false, 0, 0⟩ : Osc) 0 2 =
      ⟨some Sig.u, 0, [], 1, 1, true, some 2, Real.pi / 2, -1, Real.pi, false, 0, 0,
        true, 0, 0, 0, 0, Real.pi, 0, false, 0, 0⟩ := by
  have hpi := Real.pi_pos
  have hp1 : ¬ (Real.pi / 2 ≤ 0) := by linarith
  have hp2 : ¬ (Real.pi ≤ Real.pi / 2) := by linarith
  norm_num [update, drain, drainAux, fireInput, idleEntryStep, waveAdvance,
    arrowAdvance, idleReturnOrY, idleReturnStep, normalY, setDisplay, clamp,
    copysign, fmod, INPUT_DELAY, IDLE_RESET_TIME, IDLE_WAVE_SETTLE,
    IDLE_RETURN_SPEED, min_def, max_def, Real.arccos_zero, Real.cos_pi_div_two,
    hpi, hp1, hp2]

theorem ev_B2 :
    queueSignal (⟨some Sig.u, 0, [], 1, 1, true, some 2, Real.pi / 2, -1, Real.pi,
        false, 0, 0, true, 0, 0, 0, 0, Real.pi, 0, false, 0, 0⟩ : Osc) Sig.d 4.5 =
      ⟨some Sig.d, 4.5, [(6.5, -1)], 1, 1, true, some 2, Real.pi / 2, -1, Real.pi,
        false, 0, 0, true, 0, 0, 0, 0, Real.pi, 0, false, 0, 0⟩ := by
  simp [queueSignal, INPUT_DELAY]
  norm_num

theorem ev_B3 :
    update (⟨some Sig.d, 4.5, [(6.5, -1)], 1, 1, true, some 2, Real.pi / 2, -1,
        Real.pi, false, 0, 0, true, 0, 0, 0, 0, Real.pi, 0, false, 0, 0⟩ : Osc) 0 6.5 =
      ⟨some Sig.d, 4.5, [], -1, 4.5, true, some 6.5, Real.pi / 2, -1, Real.pi / 4.5,
        false, 0, 0, true, 1 / 9, 0, 0, 0, Real.pi / 4.5, 0, false, 0, 0⟩ := by
  have hpi := Real.pi_pos
  have hp1 : ¬ (Real.pi / 2 ≤ 0) := by linarith
  have hp2 : ¬ (Real.pi ≤ Real.pi / 2) := by linarith
  have hp3 : (0:ℝ) < Real.pi / 4.5 := by positivity
  norm_num [update, drain, drainAux, fireInput, idleEntryStep, waveAdvance,
    arrowAdvance, idleReturnOrY, idleReturnStep, normalY, setDisplay, clamp,
    copysign, fmod, INPUT_DELAY, IDLE_RESET_TIME, IDLE_WAVE_SETTLE,
    IDLE_RETURN_SPEED, min_def, max_def, Real.arccos_zero, Real.cos_pi_div_two,
    hpi, hp1, hp2, hp3]

theorem ev_B4 :
    queueSignal (⟨some Sig.d, 4.5, [], -1, 4.5, true, some 6.5, Real.pi / 2, -1,
        Real.pi / 4.5, false, 0, 0, true, 1 / 9, 0, 0, 0, Real.pi / 4.5, 0, false, 0,
        0⟩ : Osc) Sig.u 9 =
      ⟨some Sig.u, 9, [(11, 1)], -1, 4.5, true, some 6.5, Real.pi / 2, -1,
        Real.pi / 4.5, false, 0, 0, true, 1 / 9, 0, 0, 0, Real.pi / 4.5, 0, false, 0,
        0⟩ := by
  simp [queueSignal, INPUT_DELAY]
  norm_num

theorem ev_B5 :
    update (⟨some Sig.u, 9, [(11, 1)], -1, 4.5, true, some 6.5, Real.pi / 2, -1,
        Real.pi / 4.5, false, 0, 0, true, 1 / 9, 0, 0, 0, Real.pi / 4.5, 0, false, 0,
        0⟩ : Osc) 0 11 =
      ⟨some Sig.u, 9, [], 1, 4.5, true, some 11, Real.pi / 2, -1, Real.pi / 4.5,
        false, 0, 0, true, 1 / 9, 0, 0, 0, Real.pi / 4.5, 0, false, 0, 0⟩ := by
  have hpi := Real.pi_pos
  have hp1 : ¬ (Real.pi / 2 ≤ 0) := by linarith
  have hp2 : ¬ (Real.pi ≤ Real.pi / 2) := by linarith
  have hp3 : (0:ℝ) < Real.pi / 4.5 := by positivity
  norm_num [update, drain, drainAux, fireInput, idleEntryStep, waveAdvance,
    arrowAdvance, idleReturnOrY, idleReturnStep, normalY, setDisplay, clamp,
    copysign, fmod, INPUT_DELAY, IDLE_RESET_TIME, IDLE_WAVE_SETTLE,
    IDLE_RETURN_SPEED, min_def, max_def, Real.arccos_zero, Real.cos_pi_div_two,
    hpi, hp1, hp2, hp3]

theorem ev_B6 :
    update (⟨some Sig.u, 9, [], 1, 4.5, true, some 11, Real.pi / 2, -1,
        Real.pi / 4.5, false, 0, 0, true, 1 / 9, 0, 0, 0, Real.pi / 4.5, 0, false, 0,
        0⟩ : Osc) 0 13.2 =
      ⟨none, 9, [], 1, 4.5, false, none, Real.pi / 2, -1, 0, false, 0, 0,
        true, 0, 0, 0, 0, 0, 0, true, 0, 0⟩ := by
  have hpi := Real.pi_pos
  norm_num [update, drain, drainAux, fireInput, idleEntryStep, waveAdvance,
    arrowAdvance, idleReturnOrY, idleReturnStep, normalY, setDisplay, clamp,
    copysign, fmod, INPUT_DELAY, IDLE_RESET_TIME, IDLE_WAVE_SETTLE,
    IDLE_RETURN_SPEED, min_def, max_def, Real.arccos_zero, Real.cos_pi_div_two,
    hpi]

/-- C6 counterexample: after a single UP submitted at time 0, the frame at
wall-clock 4.2 already has idle_returning = true, although 4.2 is strictly
below INPUT_DELAY + IDLE_RESET_TIME = 6: the idle timer runs from the raw
input time, the input delay does not postpone it. -/
theorem idle_return_starts_before_delay_plus_reset :
    (update (queueSignal (initState 0) Sig.u 0) 0.1 4.2).idle_returning = true ∧
    (4.2 : ℝ) < INPUT_DELAY + IDLE_RESET_TIME := by
  rw [ev_q0, ev_A1]
  norm_num [INPUT_DELAY, IDLE_RESET_TIME]

/-- C6 amended: with a single UP submitted at time 0 and no further input,
idle_returning becomes true at the first frame after IDLE_RESET_TIME
measured from the raw input time (not INPUT_DELAY + IDLE_RESET_TIME), and
once the position ease over IDLE_WAVE_SETTLE and the arrow glide complete,
the soft reset leaves position 0, angle accumulator 0, and
ever_had_input false. -/
theorem idle_single_input_soft_reset :
    (update (queueSignal (initState 0) Sig.u 0) 0.1 4.2).idle_returning = true ∧
    (update (update (queueSignal (initState 0) Sig.u 0) 0.1 4.2) 1.5 6).y_norm = 0 ∧
    (update (update (queueSignal (initState 0) Sig.u 0) 0.1 4.2) 1.5 6).arrow_angle
      = 0 ∧
    (update (update (queueSignal (initState 0) Sig.u 0) 0.1 4.2) 1.5
      6).ever_had_input = false := by
  rw [ev_q0, ev_A1, ev_A2]
  norm_num

/-- C5 counterexample: steady alternating inputs at gap 4.5 seconds (inside
the accepted range) with frames that drain them: the second accepted input
sets frequency to 1 / (2 * 4.5), but the frame at wall-clock 13.2 falls
more than IDLE_RESET_TIME after the latest raw input at 9, enters idle
return, and resets frequency to 0 — the frequency does not remain at
1 / (2 g) on every subsequent frame. -/
theorem steady_gap_frequency_not_stable :
    (update (queueSignal (update (queueSignal (initState 0) Sig.u 0) 0 2) Sig.d 4.5)
        0 6.5).frequency = 1 / (2 * 4.5) ∧
    (update
        (update
          (queueSignal
            (update (queueSignal (update (queueSignal (initState 0) Sig.u 0) 0 2)
                Sig.d 4.5) 0 6.5)
            Sig.u 9)
          0 11)
        0 13.2).frequency = 0 ∧
    (1 / (2 * 4.5) : ℝ) ≠ 0 := by
  rw [ev_q0, ev_B1, ev_B2, ev_B3, ev_B4, ev_B5, ev_B6]
  norm_num

theorem waveAdvance_freq (s : Osc) (dt now : ℝ) :
    (waveAdvance s dt now).frequency = s.frequency := by
  unfold waveAdvance
  dsimp only
  split_ifs <;> rfl

theorem arrowAdvance_freq (s : Osc) (dt : ℝ) :
    (arrowAdvance s dt).frequency = s.frequency := by
  unfold arrowAdvance
  split_ifs <;> rfl

theorem idleReturnOrY_freq (s : Osc) (dt now : ℝ) :
    (idleReturnOrY s dt now).frequency = s.frequency := by
  unfold idleReturnOrY idleReturnStep normalY
  dsimp only
  split_ifs <;> rfl

theorem setDisplay_freq (s : Osc) : (setDisplay s).frequency = s.frequency := rfl

theorem chain_imp_chain' {R : ℝ → ℝ → Prop} {a : ℝ} {l : List ℝ}
    (h : List.Chain R a l) : List.Chain' R l := by
  cases l with
  | nil => trivial
  | cons b l => exact (List.chain_cons.mp h).2

theorem freq_drainAux (now g : ℝ) (hg1 : 0.05 < g) (hg2 : g < 5.0) :
    ∀ (l : List (ℝ × ℝ)) (s : Osc),
      s.frequency = 1 / (g * 2) →
      (∀ p, s.prev_accept_time = some p →
        List.Chain (fun a b : ℝ => b - a = g) p (l.map Prod.fst)) →
      List.Chain' (fun a b : ℝ => b - a = g) (l.map Prod.fst) →
      (drainAux now l s).frequency = 1 / (g * 2) := by
  intro l
  induction l with
  | nil => intro s hf _ _; exact hf
  | cons fd rest ih =>
      intro s hf hc hc'
      obtain ⟨f, d⟩ := fd
      simp only [drainAux]
      split_ifs with hready
      · have hc'' : List.Chain (fun a b : ℝ => b - a = g) f (rest.map Prod.fst) := by
          rw [List.map_cons] at hc'
          exact hc'
        cases hpa : s.prev_accept_time with
        | none =>
            apply ih (fireInput s f d)
            · rw [fireInput_none s f d hpa]; exact hf
            · intro p hp
              rw [fireInput_none s f d hpa] at hp
              rw [← (Option.some.inj hp)]
              exact hc''
            · exact chain_imp_chain' hc''
        | some p =>
            have hcp := hc p hpa
            rw [List.map_cons] at hcp
            have h1 := (List.chain_cons.mp hcp).1
            have h2 := (List.chain_cons.mp hcp).2
            apply ih (fireInput s f d)
            · rw [fireInput_good s p f d hpa (by rw [h1]; exact hg1)
                (by rw [h1]; exact hg2)]
              show (1 : ℝ) / ((f - p) * 2) = 1 / (g * 2)
              rw [h1]
            · intro p' hp'
              rw [fireInput_good s p f d hpa (by rw [h1]; exact hg1)
                (by rw [h1]; exact hg2)] at hp'
              rw [← (Option.some.inj hp')]
              exact h2
            · exact chain_imp_chain' h2
      · exact hf

/-- C5 amended: after a valid steady gap g in (0.05, 5.0) has set frequency
to 1 / (2 g), frequency stays there across any submission and across any
frame update that is not idle (which the steady regime guarantees exactly
when g is at most IDLE_RESET_TIME: the frame-to-last-raw-input distance
never exceeds g) and whose matured queue entries are g apart in fire time;
for g in (4.0, 5.0) a frame more than IDLE_RESET_TIME after the last raw
input instead resets frequency to 0. -/
theorem steady_gap_frequency_preserved (s : Osc) (g dt now t₁ : ℝ) (sig : Sig)
    (hg1 : 0.05 < g) (hg2 : g < 5.0)
    (hfreq : s.frequency = 1 / (g * 2))
    (hnoidle : ¬ IDLE_RESET_TIME < now - s.last_input_time)
    (hchain : ∀ p, s.prev_accept_time = some p →
      List.Chain (fun a b : ℝ => b - a = g) p (s.signal_queue.map Prod.fst))
    (hchain' : List.Chain' (fun a b : ℝ => b - a = g)
      (s.signal_queue.map Prod.fst)) :
    (queueSignal s sig t₁).frequency = 1 / (g * 2) ∧
    (update s dt now).frequency = 1 / (g * 2) := by
  constructor
  · unfold queueSignal
    split_ifs <;> exact hfreq
  · rw [update_phases]
    have hD : (drain s now).frequency = 1 / (g * 2) :=
      freq_drainAux now g hg1 hg2 s.signal_queue s hfreq hchain hchain'
    rw [idleEntry_skip _ _ (fun hp => hnoidle hp.1), setDisplay_freq,
      idleReturnOrY_freq, arrowAdvance_freq, waveAdvance_freq]
    exact hD

theorem steady_gap_frequency_preserved_witness :
    (0.05 : ℝ) < 1 ∧
    ((queueSignal { initState 0 with frequency := 1 / (1 * 2) } Sig.u
        1).frequency = 1 / (1 * 2) ∧
      (update { initState 0 with frequency := 1 / (1 * 2) } 0 0).frequency =
        1 / (1 * 2)) :=
  ⟨by norm_num,
    steady_gap_frequency_preserved { initState 0 with frequency := 1 / (1 * 2) }
      1 0 0 1 Sig.u (by norm_num) (by norm_num) rfl
      (by norm_num [IDLE_RESET_TIME, initState])
      (fun p hp => absurd hp (by simp [initState]))
      (by simp [initState])⟩

theorem ev_C1 :
    drain (⟨some Sig.u, 0, [(2, 1)], 1, 1, false, none, Real.pi / 2, 1, 0, false,
        0, 0, false, 0, 0, 0, 0, 0, 0, false, 0, 0⟩ : Osc) 2 =
      ⟨some Sig.u, 0, [], 1, 1, true, some 2, Real.pi / 2, -1, Real.pi, false, 0, 0,
        true, 0, 0, 0, 0, Real.pi, 0, false, 0, 0⟩ := by
  norm_num [drain, drainAux, fireInput, clamp, Real.arccos_zero]

theorem ev_C2 :
    update (⟨some Sig.u, 0, [(2, 1)], 1, 1, false, none, Real.pi / 2, 1, 0, false,
        0, 0, false, 0, 0, 0, 0, 0, 0, false, 0, 0⟩ : Osc) 0.01 2 =
      ⟨some Sig.u, 0, [], 1, 1, true, some 2, Real.pi / 2 + -1 * Real.pi * 0.01, -1,
        Real.pi, false, 0, 0, true, 0, fmod (0 + Real.pi * 0.01) (2 * Real.pi),
        1 * Real.cos (Real.pi / 2 + -1 * Real.pi * 0.01), 0 + Real.pi * 0.01,
        Real.pi, fmod (0 + Real.pi * 0.01) (2 * Real.pi), false, 0, 0⟩ := by
  have hpi := Real.pi_pos
  rw [update_phases, ev_C1]
  rw [idleEntry_skip _ _ (fun hp => absurd hp.1 (by norm_num [IDLE_RESET_TIME]))]
  rw [waveAdvance_mid _ 0.01 2 ⟨rfl, rfl, hpi⟩
    (by dsimp only; linarith) (by dsimp only; linarith)]
  rw [arrowAdvance_go _ 0.01 ⟨rfl, hpi⟩]
  rw [idleReturnOrY_normal _ 0.01 2 rfl]
  rw [normalY_active _ 2 rfl rfl]
  rw [setDisplay_eval]

/-- C10: a first accepted input (no previous accepted-input time) leaves
frequency at 0 while setting both angular speeds to pi divided by the
default half_period 1.0; concretely, one frame after such an input the
position is strictly positive and the display angle has advanced while
frequency is still 0; and an oscillator with frequency 0 always fails the
both-active sync test, so the sync timer decays. -/
theorem first_accepted_input_behaviour (s : Osc) (f d : ℝ)
    (hprev : s.prev_accept_time = none) (hhp : s.half_period = 1)
    (hfr : s.frequency = 0) :
    ((fireInput s f d).cos_speed = Real.pi ∧
      (fireInput s f d).arrow_speed = Real.pi ∧
      (fireInput s f d).frequency = 0) ∧
    (∀ (q : Osc) (timer dtv : ℝ),
      syncStep (fireInput s f d) q timer dtv = max 0 (timer - dtv * 2)) ∧
    (0 < (update (queueSignal (initState 0) Sig.u 0) 0.01 2).y_norm ∧
      0 < (update (queueSignal (initState 0) Sig.u 0) 0.01 2).display_angle ∧
      (update (queueSignal (initState 0) Sig.u 0) 0.01 2).frequency = 0) := by
  have hpi := Real.pi_pos
  have hffreq : (fireInput s f d).frequency = 0 := by
    rw [fireInput_none s f d hprev]; exact hfr
  refine ⟨⟨?_, ?_, hffreq⟩, ?_, ?_, ?_, ?_⟩
  · rw [fireInput_none s f d hprev]
    show Real.pi / s.half_period = Real.pi
    rw [hhp, div_one]
  · rw [fireInput_none s f d hprev]
    show Real.pi / s.half_period = Real.pi
    rw [hhp, div_one]
  · intro q timer dtv
    unfold syncStep
    rw [if_neg]
    intro hsc
    have h1 := hsc.2.2.1
    rw [hffreq] at h1
    norm_num at h1
  · rw [ev_q0, ev_C2]
    show 0 < 1 * Real.cos (Real.pi / 2 + -1 * Real.pi * 0.01)
    have he : Real.pi / 2 + -1 * Real.pi * 0.01 = Real.pi / 2 - Real.pi * 0.01 := by
      ring
    rw [he, Real.cos_pi_div_two_sub, one_mul]
    exact Real.sin_pos_of_pos_of_lt_pi (by linarith) (by linarith)
  · rw [ev_q0, ev_C2]
    show 0 < fmod (0 + Real.pi * 0.01) (2 * Real.pi)
    rw [zero_add, fmod_small (Real.pi * 0.01) (2 * Real.pi) (by linarith)
      (by linarith)]
    linarith
  · rw [ev_q0, ev_C2]

theorem first_accepted_input_behaviour_witness :
    (initState 0).prev_accept_time = none ∧
    ((fireInput (initState 0) 2 1).cos_speed = Real.pi ∧
      (fireInput (initState 0) 2 1).arrow_speed = Real.pi ∧
      (fireInput (initState 0) 2 1).frequency = 0) :=
  ⟨rfl, (first_accepted_input_behaviour (initState 0) 2 1 rfl (by norm_num [initState]) rfl).1⟩

/-! Shape lemmas used for the dt = 0 idempotence argument: each phase is
either the identity or an explicit record update of its input. -/

theorem arrowAdvance_zero (u : Osc) : arrowAdvance u 0 = u := by
  unfold arrowAdvance
  split_ifs with hc
  · ext <;> simp
  · rfl

theorem idleEntryStep_cases (i : Prop) (u : Osc) :
    idleEntryStep i u = u ∨
    (idleEntryStep i u =
      { u with
        idle_returning := true
        idle_wave_from := u.y_norm
        idle_wave_t := 0
        cycle_active := false
        settling := false
        cos_speed := 0
        arrow_speed := 0
        frequency := 0
        last_signal := none
        prev_accept_time := none } ∧
      u.idle_returning = false ∧ u.ever_had_input = true ∧ i) := by
  unfold idleEntryStep
  split_ifs with hc
  · exact Or.inr ⟨rfl, hc.2.2, hc.2.1, hc.1⟩
  · exact Or.inl rfl

theorem waveAdvance_cases (u : Osc) (dt now : ℝ) :
    (waveAdvance u dt now = u ∧
      ¬ (u.idle_returning = false ∧ u.cycle_active = true ∧ 0 < u.cos_speed)) ∨
    (∃ ca cd, 0 ≤ ca ∧ ca < Real.pi ∧ (ca = 0 → cd = 1) ∧
      waveAdvance u dt now = { u with cos_angle := ca, cos_dir := cd } ∧
      u.idle_returning = false ∧ u.cycle_active = true ∧ 0 < u.cos_speed) ∨
    (∃ cd, waveAdvance u dt now =
      { u with
        cos_angle := Real.pi
        cos_dir := cd
        cycle_active := false
        settling := true
        settle_start := now
        settle_from_y := -u.direction } ∧
      u.idle_returning = false ∧ u.cycle_active = true ∧ 0 < u.cos_speed) := by
  unfold waveAdvance
  dsimp only
  split_ifs with hc h1 h2 h3
  · exact Or.inr (Or.inr ⟨1, rfl, hc.1, hc.2.1, hc.2.2⟩)
  · refine Or.inr (Or.inl ⟨-(u.cos_angle + u.cos_dir * u.cos_speed * dt), 1,
      by linarith, lt_of_not_le h2, fun _ => rfl, rfl, hc.1, hc.2.1, hc.2.2⟩)
  · exact Or.inr (Or.inr ⟨u.cos_dir, rfl, hc.1, hc.2.1, hc.2.2⟩)
  · refine Or.inr (Or.inl ⟨u.cos_angle + u.cos_dir * u.cos_speed * dt, u.cos_dir,
      by linarith, lt_of_not_le h3, fun hz => absurd hz (by intro hz2; exact h1 (le_of_eq hz2)), rfl, hc.1, hc.2.1, hc.2.2⟩)
  · exact Or.inl ⟨rfl, hc⟩

theorem normalY_shape (u : Osc) (now : ℝ) :
    ∃ b y, normalY u now = { u with settling := b, y_norm := y } := by
  unfold normalY
  dsimp only
  split_ifs
  · exact ⟨u.settling, 0, rfl⟩
  · exact ⟨u.settling, u.direction * Real.cos u.cos_angle, rfl⟩
  · exact ⟨false, 0, rfl⟩
  · exact ⟨u.settling, _, rfl⟩
  · exact ⟨u.settling, 0, rfl⟩

theorem idleReturnStep_shape (u : Osc) (dt : ℝ) :
    ∃ w a b e y, idleReturnStep u dt =
      { u with
        idle_wave_t := w
        arrow_angle := a
        idle_returning := b
        ever_had_input := e
        y_norm := y } := by
  unfold idleReturnStep
  dsimp only
  split_ifs
  · exact ⟨u.idle_wave_t + dt, 0, false, false, 0, rfl⟩
  · exact ⟨u.idle_wave_t + dt, _, u.idle_returning, u.ever_had_input, _, rfl⟩
  · exact ⟨u.idle_wave_t + dt, _, u.idle_returning, u.ever_had_input, _, rfl⟩

theorem drainAux_queue (now : ℝ) :
    ∀ (l : List (ℝ × ℝ)) (u : Osc),
      (drainAux now l u).signal_queue = [] ∨
      ∃ f d rest, (drainAux now l u).signal_queue = (f, d) :: rest ∧ ¬ f ≤ now := by
  intro l
  induction l with
  | nil => intro u; exact Or.inl rfl
  | cons fd rest ih =>
      intro u
      obtain ⟨f, d⟩ := fd
      simp only [drainAux]
      split_ifs with hf
      · exact ih (fireInput u f d)
      · exact Or.inr ⟨f, d, rest, rfl, hf⟩

theorem copysign_zero_left (y : ℝ) : copysign 0 y = 0 := by
  unfold copysign
  split_ifs <;> simp

theorem idleReturnStep_comp (u : Osc) (dt : ℝ)
    (hc : 1 ≤ min ((u.idle_wave_t + dt) / IDLE_WAVE_SETTLE) 1 ∧
      |((round (u.arrow_angle / (2 * Real.pi)) : ℤ) : ℝ) * (2 * Real.pi) -
          u.arrow_angle| ≤ IDLE_RETURN_SPEED * dt) :
    idleReturnStep u dt =
      { u with
        idle_wave_t := u.idle_wave_t + dt
        idle_returning := false
        ever_had_input := false
        arrow_angle := 0
        y_norm := 0 } := by
  unfold idleReturnStep
  dsimp only
  rw [if_pos hc]

theorem idleReturnStep_zero_no_comp (u : Osc)
    (hnc : ¬ (1 ≤ min (u.idle_wave_t / IDLE_WAVE_SETTLE) 1 ∧
      |((round (u.arrow_angle / (2 * Real.pi)) : ℤ) : ℝ) * (2 * Real.pi) -
          u.arrow_angle| ≤ 0)) :
    idleReturnStep u 0 =
      { u with
        y_norm := u.idle_wave_from *
          (1 - (1 - (1 - min (u.idle_wave_t / IDLE_WAVE_SETTLE) 1) ^ 3)) } := by
  unfold idleReturnStep
  dsimp only
  rw [add_zero, mul_zero]
  rw [if_neg hnc]
  split_ifs with hd
  · have hzero :
        ((round (u.arrow_angle / (2 * Real.pi)) : ℤ) : ℝ) * (2 * Real.pi) -
          u.arrow_angle = 0 :=
      abs_eq_zero.mp (le_antisymm hd (abs_nonneg _))
    ext <;> first
      | rfl
      | (show ((round (u.arrow_angle / (2 * Real.pi)) : ℤ) : ℝ) * (2 * Real.pi) =
          u.arrow_angle
         linarith)
  · ext <;> first
      | rfl
      | (show u.arrow_angle + copysign 0 _ = u.arrow_angle
         rw [copysign_zero_left, add_zero])

theorem normalY_settle_done (u : Osc) (now : ℝ) (h : u.ever_had_input = true)
    (h2 : u.cycle_active = false) (h3 : u.settling = true)
    (h4 : 1 ≤ min ((now - u.settle_start) / SETTLE_DURATION) 1) :
    normalY u now = { u with settling := false, y_norm := 0 } := by
  unfold normalY
  rw [if_neg (by simp [h]), if_neg (by simp [h2]), if_pos h3]
  dsimp only
  rw [if_pos h4]

theorem normalY_settle_mid (u : Osc) (now : ℝ) (h : u.ever_had_input = true)
    (h2 : u.cycle_active = false) (h3 : u.settling = true)
    (h4 : ¬ 1 ≤ min ((now - u.settle_start) / SETTLE_DURATION) 1) :
    normalY u now =
      { u with
        y_norm := u.settle_from_y *
          (1 - (1 - (1 - min ((now - u.settle_start) / SETTLE_DURATION) 1) ^ 2)) } := by
  unfold normalY
  rw [if_neg (by simp [h]), if_neg (by simp [h2]), if_pos h3]
  dsimp only
  rw [if_neg h4]

theorem normalY_idem (u : Osc) (now : ℝ) :
    normalY (normalY u now) now = normalY u now := by
  cases hev : u.ever_had_input with
  | false =>
      rw [normalY_noinput u now hev]
      rw [normalY_noinput _ now (by exact hev)]
  | true =>
      cases hcyc : u.cycle_active with
      | true =>
          rw [normalY_active u now hev hcyc]
          rw [normalY_active _ now (by exact hev) (by exact hcyc)]
      | false =>
          cases hset : u.settling with
          | false =>
              rw [normalY_rest u now hev hcyc hset]
              rw [normalY_rest _ now (by exact hev) (by exact hcyc) (by exact hset)]
          | true =>
              by_cases hfr : 1 ≤ min ((now - u.settle_start) / SETTLE_DURATION) 1
              · rw [normalY_settle_done u now hev hcyc hset hfr]
                rw [normalY_rest _ now (by exact hev) (by exact hcyc) (by rfl)]
              · rw [normalY_settle_mid u now hev hcyc hset hfr]
                rw [normalY_settle_mid _ now (by exact hev) (by exact hcyc) (by exact hset) (by exact hfr)]

theorem normalY_setDisplay_comm (v : Osc) (now : ℝ) :
    normalY (setDisplay v) now = setDisplay (normalY v now) := by
  unfold normalY setDisplay
  dsimp only
  split_ifs <;> rfl

theorem update_zero_fixed (u : Osc) (now : ℝ)
    (hq : u.signal_queue = [] ∨
      ∃ f d rest, u.signal_queue = (f, d) :: rest ∧ ¬ f ≤ now)
    (hentry : ¬ (IDLE_RESET_TIME < now - u.last_input_time ∧
      u.ever_had_input = true ∧ u.idle_returning = false))
    (hwave : waveAdvance u 0 now = u)
    (hY : idleReturnOrY u 0 now = u)
    (hdisp : u.display_angle = fmod u.arrow_angle (2 * Real.pi) ∧
      u.phase = fmod u.arrow_angle (2 * Real.pi)) :
    update u 0 now = u := by
  rw [update_phases]
  have hD : drain u now = u := by
    rcases hq with h | ⟨f, d, rest, h, hf⟩
    · exact drain_nil u now h
    · exact drain_wait u now f d rest h hf
  rw [hD, idleEntry_skip _ _ hentry, hwave, arrowAdvance_zero, hY]
  ext <;> first
    | rfl
    | exact hdisp.1.symm
    | exact hdisp.2.symm

theorem second_tick_fixed (e : Osc) (now : ℝ) (hinvE : OscInv e now)
    (hq : e.signal_queue = [] ∨
      ∃ f d rest, e.signal_queue = (f, d) :: rest ∧ ¬ f ≤ now)
    (hPE : IDLE_RESET_TIME < now - e.last_input_time → e.ever_had_input = true →
      e.idle_returning = true) :
    update (setDisplay (idleReturnOrY (waveAdvance e 0 now) 0 now)) 0 now =
      setDisplay (idleReturnOrY (waveAdvance e 0 now) 0 now) := by
  obtain ⟨_, _, _, _, _, _, _, _, _, _, _, hM⟩ := hinvE
  cases hir : e.idle_returning with
  | true =>
      obtain ⟨hcs0, has0, hcyc0, hset0⟩ := hM hir
      have hWskip : waveAdvance e 0 now = e :=
        waveAdvance_skip e 0 now
          (fun hc => by rw [hir] at hc; exact Bool.noConfusion hc.1)
      rw [hWskip, idleReturnOrY_idle e 0 now hir]
      by_cases hcomp : (1 ≤ min (e.idle_wave_t / IDLE_WAVE_SETTLE) 1 ∧
        |((round (e.arrow_angle / (2 * Real.pi)) : ℤ) : ℝ) * (2 * Real.pi) -
            e.arrow_angle| ≤ 0)
      · rw [idleReturnStep_comp e 0 ⟨by rw [add_zero]; exact hcomp.1,
          by rw [mul_zero]; exact hcomp.2⟩]
        apply update_zero_fixed
        · exact hq
        · intro hcon
          exact Bool.noConfusion hcon.2.1
        · apply waveAdvance_skip
          intro hc
          have h2 := hc.2.1
          simp only [] at h2
          rw [hcyc0] at h2
          exact Bool.noConfusion h2
        · rw [idleReturnOrY_normal _ 0 now (by rfl)]
          rw [normalY_noinput _ now (by rfl)]
          ext <;> rfl
        · exact ⟨rfl, rfl⟩
      · rw [idleReturnStep_zero_no_comp e hcomp]
        apply update_zero_fixed
        · exact hq
        · intro hcon
          have h2 : e.idle_returning = false := hcon.2.2
          rw [hir] at h2
          exact Bool.noConfusion h2
        · apply waveAdvance_skip
          intro hc
          have h2 : e.idle_returning = false := hc.1
          rw [hir] at h2
          exact Bool.noConfusion h2
        · rw [idleReturnOrY_idle _ 0 now (by exact hir)]
          rw [idleReturnStep_zero_no_comp _ (by exact hcomp)]
          ext <;> rfl
        · exact ⟨rfl, rfl⟩
  | false =>
      rcases waveAdvance_cases e 0 now with ⟨hWe, hncond⟩ |
        ⟨ca, cd, hca0, hcaπ, htie, hWe, _, hecyc, hespd⟩ |
        ⟨cd, hWe, _, hecyc, hespd⟩
      · -- wave phase skipped: W = e
        rw [hWe, idleReturnOrY_normal _ 0 now hir]
        obtain ⟨b, y, hNY⟩ := normalY_shape e now
        rw [hNY]
        apply update_zero_fixed
        · exact hq
        · intro hcon
          exact Bool.noConfusion (hir ▸ hPE hcon.1 hcon.2.1)
        · apply waveAdvance_skip
          intro hc
          exact hncond ⟨hir, hc.2.1, hc.2.2⟩
        · rw [idleReturnOrY_normal _ 0 now (by exact hir)]
          have hid := normalY_idem e now
          rw [hNY] at hid
          rw [normalY_setDisplay_comm, hid]
        · exact ⟨rfl, rfl⟩
      · -- wave advanced to a mid angle ca with 0 ≤ ca < pi
        rw [hWe, idleReturnOrY_normal _ 0 now (by exact hir)]
        obtain ⟨b, y, hNY⟩ :=
          normalY_shape { e with cos_angle := ca, cos_dir := cd } now
        rw [hNY]
        apply update_zero_fixed
        · exact hq
        · intro hcon
          exact Bool.noConfusion (hir ▸ hPE hcon.1 hcon.2.1)
        · by_cases hz : ca = 0
          · subst hz
            have hcd1 : cd = 1 := htie rfl
            subst hcd1
            unfold waveAdvance
            rw [if_pos ⟨(by exact hir), (by exact hecyc), (by exact hespd)⟩]
            dsimp only [setDisplay]
            have h0 : (0 : ℝ) + 1 * e.cos_speed * 0 = 0 := by ring
            rw [h0, ite_self, if_pos (le_refl (0:ℝ)), neg_zero,
              if_neg (by linarith [Real.pi_pos] : ¬ Real.pi ≤ (0:ℝ))]
          · have hcap : 0 < ca := lt_of_le_of_ne hca0 (Ne.symm hz)
            unfold waveAdvance
            rw [if_pos ⟨(by exact hir), (by exact hecyc), (by exact hespd)⟩]
            dsimp only [setDisplay]
            have h0 : ca + cd * e.cos_speed * 0 = ca := by ring
            rw [h0, if_neg (by linarith : ¬ ca ≤ 0),
              if_neg (by linarith : ¬ ca ≤ 0),
              if_neg (by linarith : ¬ Real.pi ≤ ca)]
        · rw [idleReturnOrY_normal _ 0 now (by exact hir)]
          have hid := normalY_idem { e with cos_angle := ca, cos_dir := cd } now
          rw [hNY] at hid
          rw [normalY_setDisplay_comm, hid]
        · exact ⟨rfl, rfl⟩
      · -- wave hit pi: cycle ends, settle starts
        rw [hWe, idleReturnOrY_normal _ 0 now (by exact hir)]
        obtain ⟨b, y, hNY⟩ :=
          normalY_shape
            { e with
              cos_angle := Real.pi
              cos_dir := cd
              cycle_active := false
              settling := true
              settle_start := now
              settle_from_y := -e.direction } now
        rw [hNY]
        apply update_zero_fixed
        · exact hq
        · intro hcon
          exact Bool.noConfusion (hir ▸ hPE hcon.1 hcon.2.1)
        · apply waveAdvance_skip
          intro hc
          exact Bool.noConfusion hc.2.1
        · rw [idleReturnOrY_normal _ 0 now (by exact hir)]
          have hid := normalY_idem
            { e with
              cos_angle := Real.pi
              cos_dir := cd
              cycle_active := false
              settling := true
              settle_start := now
              settle_from_y := -e.direction } now
          rw [hNY] at hid
          rw [normalY_setDisplay_comm, hid]
        · exact ⟨rfl, rfl⟩

/-- C8: from any reachable state, a frame update with dt = 0 reaches a
fixed point: every further dt = 0 update at the same wall-clock time
(any number of them) leaves the state exactly as after the first one. -/
theorem tick_zero_idempotent {s : Osc} {t : ℝ} (h : Reachable s t) {now : ℝ}
    (ht : t ≤ now) :
    ∀ n : ℕ, (fun u => update u 0 now)^[n] (update s 0 now) = update s 0 now := by
  have h1 : update (update s 0 now) 0 now = update s 0 now := by
    have hkey : update s 0 now =
        setDisplay (idleReturnOrY (waveAdvance (idleEntryStep
          (IDLE_RESET_TIME < now - s.last_input_time) (drain s now)) 0 now)
          0 now) := by
      rw [update_phases, arrowAdvance_zero]
    rw [hkey]
    apply second_tick_fixed
    · exact inv_idleEntry (inv_drain (inv_mono (reachable_inv h) ht) now) _
    · rcases idleEntryStep_cases (IDLE_RESET_TIME < now - s.last_input_time)
        (drain s now) with hED | ⟨hEgo, _, _, _⟩
      · rw [hED]
        exact drainAux_queue now s.signal_queue s
      · rw [hEgo]
        exact drainAux_queue now s.signal_queue s
    · intro hP hev
      by_cases hcond : ((IDLE_RESET_TIME < now - s.last_input_time) ∧
        (drain s now).ever_had_input = true ∧
        (drain s now).idle_returning = false)
      · rw [idleEntry_go _ _ hcond]
      · rw [idleEntry_skip _ _ hcond] at hP hev ⊢
        have hlast : (drain s now).last_input_time = s.last_input_time :=
          (drain_fields s now).2
        rw [hlast] at hP
        rcases not_and_or.mp hcond with hA | hBC
        · exact absurd hP hA
        · rcases not_and_or.mp hBC with hB | hC
          · exact absurd hev hB
          · cases hD : (drain s now).idle_returning
            · exact absurd hD hC
            · rfl
  intro n
  induction n with
  | zero => rfl
  | succ k ih =>
      rw [Function.iterate_succ_apply]
      show (fun u => update u 0 now)^[k] (update (update s 0 now) 0 now) =
        update s 0 now
      rw [h1]
      exact ih

theorem tick_zero_idempotent_witness :
    Reachable (initState 0) 0 ∧
    (fun u => update u 0 0)^[3] (update (initState 0) 0 0) =
      update (initState 0) 0 0 :=
  ⟨Reachable.init 0, tick_zero_idempotent (Reachable.init 0) (le_refl 0) 3⟩
